import Mathlib

/-!
Verification of the core matching algorithm of the Sales-Forecasting-BI
repository (`src/Task.py`, class `SalesPredictor`).

The two functions under study are `identify_best_sales_patterns` (least-squares
selection of a reference curve per historical series) and
`load_and_predict_weekly_sales` (per-observation classification under a
`sqrt 2 · max |historical - reference|` deviation gate).

Modelling choices:
* A pandas `DataFrame` produced by `read_sales_table` is modelled as a `Table`:
  the designated x column (named `"x"`, the code accesses it by that literal
  name after lower-casing headers) plus the remaining named value columns in
  order.  Numeric cell values are modelled as exact rationals `ℚ`.
* Exceptions are modelled with `Except PErr`: `PErr.missingColumns` is
  `InvalidSalesDataError("Missing required columns 'x' or 'y'")`,
  `PErr.missingTables` is `InvalidSalesDataError("Missing pattern/historical
  data.")`, `PErr.valueError` is Python's `ValueError` (raised by `min`/`max`
  on an empty collection) and `PErr.keyError` is a column-lookup `KeyError`.
  A table that could not be read (`read_sales_table` returning `None`) is
  modelled as `none : Option Table`.
* The acceptance test `deviation <= max_dev` with
  `max_dev = max(|train - pattern|) * np.sqrt(2)` compares two nonnegative
  quantities, so it is encoded by the equivalent exact rational comparison
  `deviation ^ 2 <= 2 * max(|train - pattern|) ^ 2`; the bridging theorem
  for claim C3 proves the encoding equal to the real-number inequality
  `deviation ≤ Real.sqrt 2 * max(|train - pattern|)`.
-/

namespace SalesForecast

/-- The error outcomes `load_and_predict_weekly_sales` / `identify_best_sales_patterns`
can raise, distinguished by raise site exactly as the Python messages are. -/
inductive PErr where
  | missingColumns
  | missingTables
  | keyError
  | valueError
deriving DecidableEq

/-- A data table as returned by `read_sales_table`: the `"x"` column (first,
lower-cased name) and the remaining named value columns in column order. -/
structure Table where
  xs : List ℚ
  cols : List (String × List ℚ)
deriving DecidableEq

/-- The column names of a table (`df.columns`): `"x"` followed by the value
column names. -/
def Table.colNames (t : Table) : List String := "x" :: t.cols.map Prod.fst

/-- Column access `df[name]`: the x column for `"x"`, otherwise the first
value column with that name. -/
def Table.getCol (t : Table) (n : String) : Option (List ℚ) :=
  if n = "x" then some t.xs else (t.cols.find? (fun c => c.1 = n)).map Prod.snd

/-- Well-formedness of a materialised DataFrame: it has at least one row and
every column has the same length as the x column. -/
def Table.WF (t : Table) : Prop :=
  t.xs ≠ [] ∧ ∀ c ∈ t.cols, c.2.length = t.xs.length

/-- `np.sum((training_sales_df[week_col] - pattern_df[pattern_col]) ** 2)`:
the sum of squared differences over positionally aligned rows. -/
def sqErr (hvals rvals : List ℚ) : ℚ :=
  (List.zipWith (fun a b => (a - b) ^ 2) hvals rvals).sum

/-- The fold Python's `min(..., key=...)` performs once started from a first
element: a later element replaces the current best only on a strictly smaller
key, so the first element attaining the minimum wins. -/
def pyMinFold (b : String × ℚ) (l : List (String × ℚ)) : String × ℚ :=
  l.foldl (fun best c => if c.2 < best.2 then c else best) b

/-- Python's `min` over an association list by second component; `none` models
the `ValueError` raised on an empty collection. -/
def pyMin : List (String × ℚ) → Option (String × ℚ)
  | [] => none
  | a :: rest => some (pyMinFold a rest)

/-- The `errors` dict built in `identify_best_sales_patterns` for one
historical column: each pattern column paired with its squared error. -/
def errorsFor (p : Table) (hvals : List ℚ) : List (String × ℚ) :=
  p.cols.map (fun pc => (pc.1, sqErr hvals pc.2))

/-- The `for week_col in training_sales_df.columns[1:]` loop of
`identify_best_sales_patterns`: each historical column is mapped to
`min(errors, key=errors.get)`; an empty `errors` dict raises `ValueError`. -/
def identifyLoop (p : Table) : List (String × List ℚ) → Except PErr (List (String × String))
  | [] => .ok []
  | hc :: rest =>
    match pyMin (errorsFor p hc.2) with
    | some best => (identifyLoop p rest).map (fun m => (hc.1, best.1) :: m)
    | none => .error .valueError

/-- `identify_best_sales_patterns`: if either table failed to load (`None`),
log and return the empty mapping; otherwise run the selection loop. -/
def identifyBestSalesPatterns : Option Table → Option Table → Except PErr (List (String × String))
  | some t, some p => identifyLoop p t.cols
  | _, _ => .ok []

/-- Python's built-in `max` over a list; `none` models the `ValueError`
raised on an empty collection. -/
def maxAbs : List ℚ → Option ℚ
  | [] => none
  | a :: rest => some (rest.foldl max a)

/-- `abs(training_df[week_col] - pattern_df[pattern_col])` over positionally
aligned rows. -/
def absDiffs (tv pv : List ℚ) : List ℚ := List.zipWith (fun a b => |a - b|) tv pv

/-- `pattern_df.loc[pattern_df["x"] == x_val, pattern_col].values`: the values
of the pattern column at the rows whose x equals the observation's x, in row
order. -/
def matchRows (xs pv : List ℚ) (xv : ℚ) : List ℚ :=
  (xs.zip pv).filterMap (fun r => if r.1 = xv then some r.2 else none)

/-- `deviation < min_dev` where `min_dev` starts at `float('inf')` (modelled
by `none`). -/
def devLt (d : ℚ) : Option ℚ → Bool
  | none => true
  | some m => decide (d < m)

/-- One iteration of the inner `for week_col, pattern_col in best_patterns.items()`
loop of `load_and_predict_weekly_sales`, generalised over the squared margin
constant `sc` applied to that historical series (the source fixes
`sc = fun _ => 2`, i.e. the factor `np.sqrt(2)` on `max_dev`): skip a pattern
column absent from the pattern table; compute `max_dev`; look up the rows of
the pattern table matching the observation's x; if any, accept on
`deviation <= max_dev` and strict improvement over the running minimum. -/
def stepHGen (sc : String → ℚ) (t p : Table) (xv yv : ℚ)
    (st : Option String × Option ℚ) (hr : String × String) :
    Except PErr (Option String × Option ℚ) :=
  if hr.2 ∈ p.colNames then
    match t.getCol hr.1 with
    | none => .error .keyError
    | some tv =>
      match p.getCol hr.2 with
      | none => .error .keyError
      | some pv =>
        match maxAbs (absDiffs tv pv) with
        | none => .error .valueError
        | some m =>
          match matchRows p.xs pv xv with
          | [] => .ok st
          | v :: _ =>
            if (yv - v) ^ 2 ≤ sc hr.1 * m ^ 2 ∧ devLt |yv - v| st.2 = true then
              .ok (some hr.2, some |yv - v|)
            else .ok st
  else .ok st

/-- The source's inner loop body: `max_dev = max(abs(train - pattern)) * np.sqrt(2)`
and acceptance `deviation <= max_dev and deviation < min_dev`; the first
comparison of nonnegative quantities is encoded exactly as
`deviation ^ 2 <= 2 * max(abs(train - pattern)) ^ 2`
(note `|yv - v| ^ 2 = (yv - v) ^ 2`). -/
def stepH (t p : Table) (xv yv : ℚ)
    (st : Option String × Option ℚ) (hr : String × String) :
    Except PErr (Option String × Option ℚ) :=
  if hr.2 ∈ p.colNames then
    match t.getCol hr.1 with
    | none => .error .keyError
    | some tv =>
      match p.getCol hr.2 with
      | none => .error .keyError
      | some pv =>
        match maxAbs (absDiffs tv pv) with
        | none => .error .valueError
        | some m =>
          match matchRows p.xs pv xv with
          | [] => .ok st
          | v :: _ =>
            if (yv - v) ^ 2 ≤ 2 * m ^ 2 ∧ devLt |yv - v| st.2 = true then
              .ok (some hr.2, some |yv - v|)
            else .ok st
  else .ok st

/-- The full inner loop over `best_patterns.items()`, threading the running
`(best_match, min_dev)` state, with the source's fixed margin. -/
def runBest (t p : Table) (xv yv : ℚ) :
    (Option String × Option ℚ) → List (String × String) →
    Except PErr (Option String × Option ℚ)
  | st, [] => .ok st
  | st, hr :: rest =>
    match stepH t p xv yv st hr with
    | .ok st' => runBest t p xv yv st' rest
    | .error e => .error e

/-- `runBest` generalised over the squared margin constant. -/
def runBestGen (sc : String → ℚ) (t p : Table) (xv yv : ℚ) :
    (Option String × Option ℚ) → List (String × String) →
    Except PErr (Option String × Option ℚ)
  | st, [] => .ok st
  | st, hr :: rest =>
    match stepHGen sc t p xv yv st hr with
    | .ok st' => runBestGen sc t p xv yv st' rest
    | .error e => .error e

/-- One row appended to `forecast_results`: `(x_val, y_val, min_dev, best_match)`.
`delta = none` models the `float('inf')` sentinel left when nothing was
accepted; `ideal = none` models Python's `None`. -/
structure ForecastRow where
  x : ℚ
  y : ℚ
  delta : Option ℚ
  ideal : Option String
deriving DecidableEq

/-- Classification of a single test observation `(x_val, y_val)`: the inner
loop started from `best_match, min_dev = None, float('inf')`. -/
def classifyRow (t p : Table) (best : List (String × String)) (xv yv : ℚ) :
    Except PErr ForecastRow :=
  (runBest t p xv yv (none, none) best).map (fun st => ⟨xv, yv, st.2, st.1⟩)

/-- `classifyRow` generalised over the squared margin constant. -/
def classifyRowGen (sc : String → ℚ) (t p : Table) (best : List (String × String))
    (xv yv : ℚ) : Except PErr ForecastRow :=
  (runBestGen sc t p xv yv (none, none) best).map (fun st => ⟨xv, yv, st.2, st.1⟩)

/-- The `for _, row in test_sales_df.iterrows()` loop: one forecast row per
observation, in input order. -/
def classifyAll (t p : Table) (best : List (String × String)) :
    List (ℚ × ℚ) → Except PErr (List ForecastRow)
  | [] => .ok []
  | o :: os =>
    match classifyRow t p best o.1 o.2 with
    | .ok r =>
      match classifyAll t p best os with
      | .ok rs => .ok (r :: rs)
      | .error e => .error e
    | .error e => .error e

/-- The test CSV as read by `pd.read_csv` with lower-cased headers: named
columns of equal length. -/
structure Frame where
  cols : List (String × List ℚ)
deriving DecidableEq

/-- `test_sales_df.columns`. -/
def Frame.names (f : Frame) : List String := f.cols.map Prod.fst

/-- `test_sales_df[name]`. -/
def Frame.getCol (f : Frame) (n : String) : Option (List ℚ) :=
  (f.cols.find? (fun c => c.1 = n)).map Prod.snd

/-- `load_and_predict_weekly_sales` after the test CSV is materialised: check
the x/y schema once, run `identify_best_sales_patterns`, re-read the two
tables and raise if either is missing, then classify each `(x, y)` row. -/
def loadAndPredictWeeklySales (test : Frame) (training pattern : Option Table) :
    Except PErr (List ForecastRow) :=
  if "x" ∈ test.names ∧ "y" ∈ test.names then
    match identifyBestSalesPatterns training pattern with
    | .error e => .error e
    | .ok best =>
      match training, pattern with
      | some t, some p =>
        match test.getCol "x", test.getCol "y" with
        | some xc, some yc => classifyAll t p best (xc.zip yc)
        | _, _ => .error .keyError
      | _, _ => .error .missingTables
  else .error .missingColumns

/-- One step of Python's `min(..., key=f)` scan: a later element replaces the
current best only on a strictly smaller key. -/
def pickMin {α : Type} (f : α → ℚ) (best c : α) : α := if f c < f best then c else best

/-- The first element of a list attaining the minimal key (`none` on `[]`):
the selection `min(..., key=f)` performs. -/
def firstMin {α : Type} (f : α → ℚ) : List α → Option α
  | [] => none
  | a :: l => some (l.foldl (pickMin f) a)

/-- The pure update the classification loop applies to its
`(best_match, min_dev)` state for an accepted candidate `(column, deviation)`:
replace on strict deviation improvement only. -/
def selUpd (st : Option String × Option ℚ) (c : String × ℚ) :
    Option String × Option ℚ :=
  if devLt c.2 st.2 = true then (some c.1, some c.2) else st

/-- Folding `selUpd` over a candidate list. -/
def selFold : (Option String × Option ℚ) → List (String × ℚ) → Option String × Option ℚ
  | st, [] => st
  | st, c :: rest => selFold (selUpd st c) rest

/-- The candidate (pattern column, deviation) one `best_patterns` entry
contributes for an observation, under squared margin constant `sc`: `none`
when the pattern column is absent, no row matches the observation's x, or the
deviation exceeds the tolerance. -/
def candOfGen (sc : String → ℚ) (t p : Table) (xv yv : ℚ) (hr : String × String) :
    Option (String × ℚ) :=
  if hr.2 ∈ p.colNames then
    match t.getCol hr.1, p.getCol hr.2 with
    | some tv, some pv =>
      match maxAbs (absDiffs tv pv) with
      | some m =>
        match matchRows p.xs pv xv with
        | v :: _ => if (yv - v) ^ 2 ≤ sc hr.1 * m ^ 2 then some (hr.2, |yv - v|) else none
        | [] => none
      | none => none
    | _, _ => none
  else none

/-- The candidate contributed under the source's fixed `sqrt 2` margin. -/
def candOf (t p : Table) (xv yv : ℚ) (hr : String × String) : Option (String × ℚ) :=
  candOfGen (fun _ => 2) t p xv yv hr

/-- All accepted candidates for one observation, in `best_patterns` iteration
order, under squared margin constant `sc`. -/
def candListGen (sc : String → ℚ) (t p : Table) (xv yv : ℚ)
    (best : List (String × String)) : List (String × ℚ) :=
  best.filterMap (candOfGen sc t p xv yv)

/-- All accepted candidates for one observation under the source's margin. -/
def candList (t p : Table) (xv yv : ℚ) (best : List (String × String)) :
    List (String × ℚ) :=
  best.filterMap (candOf t p xv yv)

/-- The lookups one `best_patterns` entry performs succeed and compare at
least one aligned row (so the Python `max` cannot be applied to an empty
collection): what a well-formed pair of tables guarantees. -/
def RowOK (t p : Table) (hr : String × String) : Prop :=
  hr.2 ∈ p.colNames →
    ∃ tv pv, t.getCol hr.1 = some tv ∧ p.getCol hr.2 = some pv ∧ absDiffs tv pv ≠ []

/-! ## First-minimum selection -/

lemma foldl_pickMin_spec {α : Type} (f : α → ℚ) (l : List α) (b : α) :
    ∃ l1 l2, b :: l = l1 ++ (l.foldl (pickMin f) b) :: l2 ∧
      (∀ c ∈ b :: l, f (l.foldl (pickMin f) b) ≤ f c) ∧
      ∀ c ∈ l1, f (l.foldl (pickMin f) b) < f c := by
  induction l generalizing b with
  | nil =>
    refine ⟨[], [], rfl, ?_, by simp⟩
    intro c hc
    rw [List.mem_singleton] at hc
    subst hc
    exact le_rfl
  | cons c rest ih =>
    have hfold : (c :: rest).foldl (pickMin f) b = rest.foldl (pickMin f) (pickMin f b c) :=
      List.foldl_cons _ _
    by_cases hcb : f c < f b
    · have hpick : pickMin f b c = c := if_pos hcb
      obtain ⟨l1, l2, hdec, hmin, hstrict⟩ := ih c
      have hle : f (rest.foldl (pickMin f) c) ≤ f c := hmin c (List.mem_cons_self _ _)
      refine ⟨b :: l1, l2, ?_, ?_, ?_⟩
      · rw [hfold, hpick, List.cons_append, ← hdec]
      · intro z hz
        rw [hfold, hpick]
        rcases List.mem_cons.1 hz with rfl | hz
        · exact le_of_lt (lt_of_le_of_lt hle hcb)
        · exact hmin z hz
      · intro z hz
        rw [hfold, hpick]
        rcases List.mem_cons.1 hz with rfl | hz
        · exact lt_of_le_of_lt hle hcb
        · exact hstrict z hz
    · have hpick : pickMin f b c = b := if_neg hcb
      have hbc : f b ≤ f c := not_lt.1 hcb
      obtain ⟨l1, l2, hdec, hmin, hstrict⟩ := ih b
      cases l1 with
      | nil =>
        have hres : rest.foldl (pickMin f) b = b := by
          have := hdec
          rw [List.nil_append] at this
          exact (List.cons.injEq _ _ _ _ ▸ this : _ ∧ _).1.symm
        rw [hres] at hmin
        refine ⟨[], c :: rest, ?_, ?_, by simp⟩
        · rw [hfold, hpick, hres, List.nil_append]
        · intro z hz
          rw [hfold, hpick, hres]
          rcases List.mem_cons.1 hz with rfl | hz
          · exact le_rfl
          · rcases List.mem_cons.1 hz with rfl | hz
            · exact hbc
            · exact hmin z (List.mem_cons_of_mem _ hz)
      | cons a l1' =>
        rw [List.cons_append] at hdec
        have ha : a = b := (List.cons.injEq _ _ _ _ ▸ hdec : _ ∧ _).1.symm
        have hrest : rest = l1' ++ rest.foldl (pickMin f) b :: l2 :=
          (List.cons.injEq _ _ _ _ ▸ hdec : _ ∧ _).2
        have hfb : f (rest.foldl (pickMin f) b) < f b :=
          ha ▸ hstrict a (List.mem_cons_self _ _)
        refine ⟨b :: c :: l1', l2, ?_, ?_, ?_⟩
        · rw [hfold, hpick, List.cons_append, List.cons_append, ← hrest]
        · intro z hz
          rw [hfold, hpick]
          rcases List.mem_cons.1 hz with rfl | hz
          · exact le_of_lt hfb
          · rcases List.mem_cons.1 hz with rfl | hz
            · exact le_of_lt (lt_of_lt_of_le hfb hbc)
            · exact hmin z (List.mem_cons_of_mem _ hz)
        · intro z hz
          rw [hfold, hpick]
          rcases List.mem_cons.1 hz with rfl | hz
          · exact hfb
          · rcases List.mem_cons.1 hz with rfl | hz
            · exact lt_of_lt_of_le hfb hbc
            · exact hstrict z (List.mem_cons_of_mem _ hz)

lemma firstMin_spec {α : Type} (f : α → ℚ) (l : List α) (hne : l ≠ []) :
    ∃ r l1 l2, firstMin f l = some r ∧ l = l1 ++ r :: l2 ∧
      (∀ c ∈ l, f r ≤ f c) ∧ ∀ c ∈ l1, f r < f c := by
  cases l with
  | nil => exact absurd rfl hne
  | cons a rest =>
    obtain ⟨l1, l2, hdec, hmin, hstrict⟩ := foldl_pickMin_spec f rest a
    exact ⟨rest.foldl (pickMin f) a, l1, l2, rfl, hdec, hmin, hstrict⟩

lemma foldl_pickMin_stay {α : Type} (f : α → ℚ) (l : List α) (b : α)
    (h : ∀ c ∈ l, ¬ f c < f b) : l.foldl (pickMin f) b = b := by
  induction l with
  | nil => rfl
  | cons c rest ih =>
    have : pickMin f b c = b := if_neg (h c (List.mem_cons_self _ _))
    rw [List.foldl_cons, this]
    exact ih fun z hz => h z (List.mem_cons_of_mem _ hz)

lemma foldl_pickMin_reach {α : Type} (f : α → ℚ) (x : α) (l2 : List α)
    (hl2 : ∀ c ∈ l2, ¬ f c < f x) :
    ∀ l1 b, f x < f b → (∀ c ∈ l1, f x < f c) →
      (l1 ++ x :: l2).foldl (pickMin f) b = x := by
  intro l1
  induction l1 with
  | nil =>
    intro b hb _
    rw [List.nil_append, List.foldl_cons]
    have : pickMin f b x = x := if_pos hb
    rw [this]
    exact foldl_pickMin_stay f l2 x hl2
  | cons a l1' ih =>
    intro b hb hl1
    rw [List.cons_append, List.foldl_cons]
    have ha : f x < f a := hl1 a (List.mem_cons_self _ _)
    have hmem : ∀ c ∈ l1', f x < f c := fun z hz => hl1 z (List.mem_cons_of_mem _ hz)
    rcases eq_or_ne (pickMin f b a) a with hp | hp
    · rw [hp]; exact ih a ha hmem
    · have : pickMin f b a = b := by
        unfold pickMin at hp ⊢
        by_cases hab : f a < f b
        · exact absurd (if_pos hab) hp
        · exact if_neg hab
      rw [this]; exact ih b hb hmem

lemma firstMin_first {α : Type} (f : α → ℚ) (l1 : List α) (x : α) (l2 : List α)
    (hmin : ∀ c ∈ l1 ++ x :: l2, f x ≤ f c) (hstrict : ∀ c ∈ l1, f x < f c) :
    firstMin f (l1 ++ x :: l2) = some x := by
  have hl2 : ∀ c ∈ l2, ¬ f c < f x := by
    intro c hc
    exact not_lt.2 (hmin c (List.mem_append_right _ (List.mem_cons_of_mem _ hc)))
  cases l1 with
  | nil =>
    show some (l2.foldl (pickMin f) x) = some x
    rw [foldl_pickMin_stay f l2 x hl2]
  | cons a l1' =>
    show some ((l1' ++ x :: l2).foldl (pickMin f) a) = some x
    rw [foldl_pickMin_reach f x l2 hl2 l1' a (hstrict a (List.mem_cons_self _ _))
      (fun z hz => hstrict z (List.mem_cons_of_mem _ hz))]

/-! ## Links between the source's folds and the generic selection -/

lemma pyMinFold_eq_pickMin (b : String × ℚ) (l : List (String × ℚ)) :
    pyMinFold b l = l.foldl (pickMin Prod.snd) b := rfl

lemma pyMin_eq_firstMin (l : List (String × ℚ)) : pyMin l = firstMin Prod.snd l := by
  cases l <;> rfl

lemma pyMinFold_cons (b c : String × ℚ) (l : List (String × ℚ)) :
    pyMinFold b (c :: l) = pyMinFold (if c.2 < b.2 then c else b) l := rfl

lemma pyMinFold_map {α : Type} (g : α → String × ℚ) (a : α) (l : List α) :
    pyMinFold (g a) (l.map g) = g (l.foldl (pickMin fun z => (g z).2) a) := by
  induction l generalizing a with
  | nil => rfl
  | cons c rest ih =>
    rw [List.map_cons, pyMinFold_cons, List.foldl_cons]
    have : (if (g c).2 < (g a).2 then g c else g a) = g (pickMin (fun z => (g z).2) a c) := by
      unfold pickMin
      exact (apply_ite g _ _ _).symm
    rw [this, ih]

lemma selFold_pairSome (b : String × ℚ) (l : List (String × ℚ)) :
    selFold (some b.1, some b.2) l = (some (pyMinFold b l).1, some (pyMinFold b l).2) := by
  induction l generalizing b with
  | nil => rfl
  | cons c rest ih =>
    show selFold (selUpd (some b.1, some b.2) c) rest = _
    rw [pyMinFold_cons]
    by_cases h : c.2 < b.2
    · have hupd : selUpd (some b.1, some b.2) c = (some c.1, some c.2) := by
        unfold selUpd devLt
        rw [if_pos (by simpa using h)]
      rw [hupd, if_pos h, ih]
    · have hupd : selUpd (some b.1, some b.2) c = (some b.1, some b.2) := by
        unfold selUpd devLt
        rw [if_neg (by simpa using h)]
      rw [hupd, if_neg h, ih]

lemma selFold_none (l : List (String × ℚ)) :
    selFold (none, none) l =
      ((firstMin Prod.snd l).map Prod.fst, (firstMin Prod.snd l).map Prod.snd) := by
  cases l with
  | nil => rfl
  | cons a rest =>
    have hupd : selUpd (none, none) a = (some a.1, some a.2) := rfl
    show selFold (selUpd (none, none) a) rest = _
    rw [hupd, selFold_pairSome, pyMinFold_eq_pickMin]
    rfl

/-! ## Table access and well-formedness -/

lemma maxAbs_eq_none_iff (l : List ℚ) : maxAbs l = none ↔ l = [] := by
  cases l <;> simp [maxAbs]

lemma foldl_max_spec (l : List ℚ) (b : ℚ) :
    (l.foldl max b = b ∨ l.foldl max b ∈ l) ∧ b ≤ l.foldl max b ∧
      ∀ x ∈ l, x ≤ l.foldl max b := by
  induction l generalizing b with
  | nil => exact ⟨Or.inl rfl, le_rfl, by simp⟩
  | cons c rest ih =>
    obtain ⟨hmem, hle, hall⟩ := ih (max b c)
    rw [List.foldl_cons]
    refine ⟨?_, le_trans (le_max_left b c) hle, ?_⟩
    · rcases hmem with h | h
      · rcases max_choice b c with hm | hm
        · exact Or.inl (h.trans hm)
        · exact Or.inr (List.mem_cons.2 (Or.inl (h.trans hm)))
      · exact Or.inr (List.mem_cons_of_mem _ h)
    · intro x hx
      rcases List.mem_cons.1 hx with rfl | hx
      · exact le_trans (le_max_right b x) hle
      · exact hall x hx

lemma maxAbs_spec (l : List ℚ) (m : ℚ) (h : maxAbs l = some m) :
    m ∈ l ∧ ∀ x ∈ l, x ≤ m := by
  cases l with
  | nil => exact absurd h (by simp [maxAbs])
  | cons a rest =>
    have hm : rest.foldl max a = m := by
      have : some (rest.foldl max a) = some m := h
      exact Option.some.inj this
    obtain ⟨hmem, hle, hall⟩ := foldl_max_spec rest a
    subst hm
    refine ⟨?_, ?_⟩
    · rcases hmem with h' | h'
      · rw [h']; exact List.mem_cons_self _ _
      · exact List.mem_cons_of_mem _ h'
    · intro x hx
      rcases List.mem_cons.1 hx with rfl | hx
      · exact hle
      · exact hall x hx

lemma absDiffs_nonneg (tv pv : List ℚ) : ∀ x ∈ absDiffs tv pv, 0 ≤ x := by
  induction tv generalizing pv with
  | nil => simp [absDiffs]
  | cons a tl ih =>
    cases pv with
    | nil => simp [absDiffs]
    | cons b pl =>
      intro x hx
      rcases List.mem_cons.1 hx with rfl | hx
      · exact abs_nonneg _
      · exact ih pl x hx

lemma absDiffs_ne_nil (tv pv : List ℚ) (htv : tv ≠ []) (hpv : pv ≠ []) :
    absDiffs tv pv ≠ [] := by
  cases tv with
  | nil => exact absurd rfl htv
  | cons a tl =>
    cases pv with
    | nil => exact absurd rfl hpv
    | cons b pl => simp [absDiffs]

lemma getCol_of_mem (t : Table) (n : String) (hn : n ∈ t.colNames) :
    ∃ v, t.getCol n = some v ∧ (t.WF → v ≠ []) := by
  by_cases hx : n = "x"
  · refine ⟨t.xs, ?_, fun hwf => hwf.1⟩
    unfold Table.getCol
    rw [if_pos hx]
  · have hn' : n ∈ t.cols.map Prod.fst := by
      rcases List.mem_cons.1 hn with h | h
      · exact absurd h hx
      · exact h
    obtain ⟨c, hc, hceq⟩ := List.mem_map.1 hn'
    have hfind : (t.cols.find? (fun c => c.1 = n)).isSome := by
      rw [List.find?_isSome]
      exact ⟨c, hc, by simp [hceq]⟩
    obtain ⟨c', hc'⟩ := Option.isSome_iff_exists.1 hfind
    refine ⟨c'.2, ?_, ?_⟩
    · unfold Table.getCol
      rw [if_neg hx, hc']
      rfl
    · intro hwf
      have hmem : c' ∈ t.cols := List.mem_of_find?_eq_some hc'
      have hlen : c'.2.length = t.xs.length := hwf.2 c' hmem
      have hpos : 0 < t.xs.length := List.length_pos.2 hwf.1
      exact List.ne_nil_of_length_pos (hlen ▸ hpos)

lemma rowOK_of_WF (t p : Table) (hr : String × String) (ht : t.WF) (hp : p.WF)
    (hcross : hr.2 ∈ p.colNames → hr.1 ∈ t.colNames) : RowOK t p hr := by
  intro hmem
  obtain ⟨tv, htv, htvne⟩ := getCol_of_mem t hr.1 (hcross hmem)
  obtain ⟨pv, hpv, hpvne⟩ := getCol_of_mem p hr.2 hmem
  exact ⟨tv, pv, htv, hpv, absDiffs_ne_nil tv pv (htvne ht) (hpvne hp)⟩

/-! ## The classification loop computes the first minimum over accepted candidates -/

lemma stepHGen_eq_cand (sc : String → ℚ) (t p : Table) (xv yv : ℚ)
    (st : Option String × Option ℚ) (hr : String × String) (hok : RowOK t p hr) :
    stepHGen sc t p xv yv st hr =
      .ok (match candOfGen sc t p xv yv hr with
        | some c => selUpd st c
        | none => st) := by
  by_cases hmem : hr.2 ∈ p.colNames
  · obtain ⟨tv, pv, htv, hpv, hne⟩ := hok hmem
    obtain ⟨m, hm⟩ : ∃ m, maxAbs (absDiffs tv pv) = some m := by
      cases h : maxAbs (absDiffs tv pv) with
      | none => exact absurd ((maxAbs_eq_none_iff _).1 h) hne
      | some m => exact ⟨m, rfl⟩
    simp only [stepHGen, candOfGen, hmem, if_true, htv, hpv, hm]
    cases hmr : matchRows p.xs pv xv with
    | nil => rfl
    | cons v rest =>
      show (if (yv - v) ^ 2 ≤ sc hr.1 * m ^ 2 ∧ devLt |yv - v| st.2 = true then
              Except.ok (some hr.2, some |yv - v|) else Except.ok st) =
        Except.ok (match (if (yv - v) ^ 2 ≤ sc hr.1 * m ^ 2 then
              some (hr.2, |yv - v|) else none : Option (String × ℚ)) with
          | some c => selUpd st c
          | none => st)
      by_cases hgate : (yv - v) ^ 2 ≤ sc hr.1 * m ^ 2
      · by_cases hd : devLt |yv - v| st.2 = true
        · rw [if_pos ⟨hgate, hd⟩, if_pos hgate]
          show _ = Except.ok (selUpd st (hr.2, |yv - v|))
          unfold selUpd
          rw [if_pos hd]
        · rw [if_neg (fun h => hd h.2), if_pos hgate]
          show Except.ok st = Except.ok (selUpd st (hr.2, |yv - v|))
          unfold selUpd
          rw [if_neg hd]
      · rw [if_neg (fun h => hgate h.1), if_neg hgate]
  · unfold stepHGen candOfGen
    rw [if_neg hmem, if_neg hmem]

lemma runBestGen_eq_selFold (sc : String → ℚ) (t p : Table) (xv yv : ℚ)
    (best : List (String × String)) :
    ∀ st, (∀ hr ∈ best, RowOK t p hr) →
      runBestGen sc t p xv yv st best = .ok (selFold st (candListGen sc t p xv yv best)) := by
  induction best with
  | nil => intro st _; rfl
  | cons hr rest ih =>
    intro st hok
    have hstep := stepHGen_eq_cand sc t p xv yv st hr (hok hr (List.mem_cons_self _ _))
    show (match stepHGen sc t p xv yv st hr with
      | .ok st' => runBestGen sc t p xv yv st' rest
      | .error e => .error e) = _
    rw [hstep]
    have hrest := fun st' => ih st' (fun z hz => hok z (List.mem_cons_of_mem _ hz))
    cases hc : candOfGen sc t p xv yv hr with
    | none =>
      have hcl : candListGen sc t p xv yv (hr :: rest) = candListGen sc t p xv yv rest :=
        List.filterMap_cons_none hc
      rw [hcl]
      exact hrest st
    | some c =>
      have hcl : candListGen sc t p xv yv (hr :: rest) = c :: candListGen sc t p xv yv rest :=
        List.filterMap_cons_some hc
      rw [hcl]
      exact hrest (selUpd st c)

lemma stepH_eq_gen (t p : Table) (xv yv : ℚ) (st : Option String × Option ℚ)
    (hr : String × String) : stepH t p xv yv st hr = stepHGen (fun _ => 2) t p xv yv st hr := rfl

lemma runBest_eq_gen (t p : Table) (xv yv : ℚ) (best : List (String × String)) :
    ∀ st, runBest t p xv yv st best = runBestGen (fun _ => 2) t p xv yv st best := by
  induction best with
  | nil => intro st; rfl
  | cons hr rest ih =>
    intro st
    show (match stepH t p xv yv st hr with
      | .ok st' => runBest t p xv yv st' rest
      | .error e => .error e) = (match stepHGen (fun _ => 2) t p xv yv st hr with
      | .ok st' => runBestGen (fun _ => 2) t p xv yv st' rest
      | .error e => .error e)
    rw [stepH_eq_gen]
    cases stepHGen (fun _ => 2) t p xv yv st hr with
    | ok st' => exact ih st'
    | error e => rfl

lemma candListGen_two (t p : Table) (xv yv : ℚ) (best : List (String × String)) :
    candListGen (fun _ => 2) t p xv yv best = candList t p xv yv best := rfl

lemma classifyRow_eq_gen (t p : Table) (best : List (String × String)) (xv yv : ℚ) :
    classifyRow t p best xv yv = classifyRowGen (fun _ => 2) t p best xv yv := by
  unfold classifyRow classifyRowGen
  rw [runBest_eq_gen]

lemma classifyRowGen_char (sc : String → ℚ) (t p : Table) (best : List (String × String))
    (xv yv : ℚ) (hok : ∀ hr ∈ best, RowOK t p hr) :
    classifyRowGen sc t p best xv yv = .ok ⟨xv, yv,
      (firstMin Prod.snd (candListGen sc t p xv yv best)).map Prod.snd,
      (firstMin Prod.snd (candListGen sc t p xv yv best)).map Prod.fst⟩ := by
  unfold classifyRowGen
  rw [runBestGen_eq_selFold sc t p xv yv best (none, none) hok, selFold_none]
  rfl

lemma classifyRow_char (t p : Table) (best : List (String × String)) (xv yv : ℚ)
    (hok : ∀ hr ∈ best, RowOK t p hr) :
    classifyRow t p best xv yv = .ok ⟨xv, yv,
      (firstMin Prod.snd (candList t p xv yv best)).map Prod.snd,
      (firstMin Prod.snd (candList t p xv yv best)).map Prod.fst⟩ := by
  rw [classifyRow_eq_gen]
  exact classifyRowGen_char (fun _ => 2) t p best xv yv hok

/-! ## The selection loop of identify_best_sales_patterns -/

lemma bestFor_spec (p : Table) (hv : List ℚ) (hpc : p.cols ≠ []) :
    ∃ c1 pc c2, p.cols = c1 ++ pc :: c2 ∧
      pyMin (errorsFor p hv) = some (pc.1, sqErr hv pc.2) ∧
      (∀ q ∈ p.cols, sqErr hv pc.2 ≤ sqErr hv q.2) ∧
      ∀ q ∈ c1, sqErr hv pc.2 < sqErr hv q.2 := by
  cases hcols : p.cols with
  | nil => exact absurd hcols hpc
  | cons a rest =>
    obtain ⟨l1, l2, hdec, hmin, hstrict⟩ := foldl_pickMin_spec (fun z => sqErr hv z.2) rest a
    refine ⟨l1, rest.foldl (pickMin fun z => sqErr hv z.2) a, l2, hdec, ?_,
      ?_, hstrict⟩
    · unfold errorsFor
      rw [hcols, List.map_cons]
      show some (pyMinFold _ _) = _
      rw [pyMinFold_map (fun pc => (pc.1, sqErr hv pc.2)) a rest]
    · intro q hq
      exact hmin q hq

lemma identifyLoop_ok (p : Table) (hpc : p.cols ≠ []) (l : List (String × List ℚ)) :
    ∃ m, identifyLoop p l = .ok m ∧ m.length = l.length ∧
      ∀ pr ∈ l.zip m, pr.2.1 = pr.1.1 ∧
        ∃ c1 pc c2, p.cols = c1 ++ pc :: c2 ∧ pr.2.2 = pc.1 ∧
          (∀ q ∈ p.cols, sqErr pr.1.2 pc.2 ≤ sqErr pr.1.2 q.2) ∧
          ∀ q ∈ c1, sqErr pr.1.2 pc.2 < sqErr pr.1.2 q.2 := by
  induction l with
  | nil => exact ⟨[], rfl, rfl, by simp⟩
  | cons hc rest ih =>
    obtain ⟨m, hm, hlen, hall⟩ := ih
    obtain ⟨c1, pc, c2, hdec, hpym, hmin, hstrict⟩ := bestFor_spec p hc.2 hpc
    refine ⟨(hc.1, pc.1) :: m, ?_, by simp [hlen], ?_⟩
    · show (match pyMin (errorsFor p hc.2) with
        | some best => (identifyLoop p rest).map (fun m => (hc.1, best.1) :: m)
        | none => .error .valueError) = _
      rw [hpym, hm]
      rfl
    · intro pr hpr
      rw [List.zip_cons_cons] at hpr
      rcases List.mem_cons.1 hpr with rfl | hpr
      · exact ⟨rfl, c1, pc, c2, hdec, rfl, hmin, hstrict⟩
      · exact hall pr hpr

/-! ## The first matching row wins -/

lemma matchRows_first (xv : ℚ) :
    ∀ (j : ℕ) (xs pv : List ℚ) (hj : j < xs.length) (hjp : j < pv.length),
      xs.get ⟨j, hj⟩ = xv → (∀ i (hi : i < j), xs.get ⟨i, lt_trans hi hj⟩ ≠ xv) →
      ∃ rest, matchRows xs pv xv = pv.get ⟨j, hjp⟩ :: rest := by
  intro j
  induction j with
  | zero =>
    intro xs pv hj hjp hx _
    cases xs with
    | nil => simp at hj
    | cons x xt =>
      cases pv with
      | nil => simp at hjp
      | cons v vt =>
        refine ⟨matchRows xt vt xv, ?_⟩
        unfold matchRows
        rw [List.zip_cons_cons]
        have hx0 : x = xv := hx
        exact List.filterMap_cons_some (by simp [hx0])
  | succ j ih =>
    intro xs pv hj hjp hx hbefore
    cases xs with
    | nil => simp at hj
    | cons x xt =>
      cases pv with
      | nil => simp at hjp
      | cons v vt =>
        have hx0 : x ≠ xv := by
          have := hbefore 0 (Nat.succ_pos j)
          simpa using this
        have hskip : matchRows (x :: xt) (v :: vt) xv = matchRows xt vt xv := by
          unfold matchRows
          rw [List.zip_cons_cons]
          exact List.filterMap_cons_none (by simp [hx0])
        have hj' : j < xt.length := Nat.lt_of_succ_lt_succ (by simpa using hj)
        have hjp' : j < vt.length := Nat.lt_of_succ_lt_succ (by simpa using hjp)
        have hx' : xt.get ⟨j, hj'⟩ = xv := by simpa using hx
        have hb' : ∀ i (hi : i < j), xt.get ⟨i, lt_trans hi hj'⟩ ≠ xv := by
          intro i hi
          have := hbefore (i + 1) (Nat.succ_lt_succ hi)
          simpa using this
        obtain ⟨rest, hrest⟩ := ih xt vt hj' hjp' hx' hb'
        rw [hskip, hrest]
        exact ⟨rest, by simp⟩

/-! ## The squared-comparison encoding of the sqrt 2 margin -/

lemma gate_iff_sqrt2 (d m : ℚ) (hd : 0 ≤ d) (hm : 0 ≤ m) :
    d ^ 2 ≤ 2 * m ^ 2 ↔ (d : ℝ) ≤ Real.sqrt 2 * (m : ℝ) := by
  have hdR : (0 : ℝ) ≤ (d : ℝ) := by exact_mod_cast hd
  have hmR : (0 : ℝ) ≤ (m : ℝ) := by exact_mod_cast hm
  have hsq : Real.sqrt 2 ^ 2 = 2 := Real.sq_sqrt (by norm_num)
  constructor
  · intro h
    have hR : (d : ℝ) ^ 2 ≤ 2 * (m : ℝ) ^ 2 := by exact_mod_cast h
    have h2 : Real.sqrt ((d : ℝ) ^ 2) ≤ Real.sqrt (2 * (m : ℝ) ^ 2) := Real.sqrt_le_sqrt hR
    rw [Real.sqrt_sq hdR, Real.sqrt_mul (by norm_num) _, Real.sqrt_sq hmR] at h2
    exact h2
  · intro h
    have h2 : (d : ℝ) ^ 2 ≤ (Real.sqrt 2 * (m : ℝ)) ^ 2 := pow_le_pow_left₀ hdR h 2
    rw [mul_pow, hsq] at h2
    exact_mod_cast h2

lemma gate_iff_sqrt2R (yv v m : ℚ) (hm0 : 0 ≤ m) :
    (yv - v) ^ 2 ≤ 2 * m ^ 2 ↔ |(yv : ℝ) - (v : ℝ)| ≤ Real.sqrt 2 * (m : ℝ) := by
  have hcast : ((|yv - v| : ℚ) : ℝ) = |(yv : ℝ) - (v : ℝ)| := by push_cast; rfl
  rw [← sq_abs, gate_iff_sqrt2 _ _ (abs_nonneg _) hm0, hcast]

/-! ## Which exceptions each loop can raise -/

lemma identifyLoop_error (p : Table) (l : List (String × List ℚ)) :
    ∀ e, identifyLoop p l = .error e → e = .valueError := by
  induction l with
  | nil => intro e h; exact absurd h (by simp [identifyLoop])
  | cons hc rest ih =>
    intro e h
    unfold identifyLoop at h
    cases hpm : pyMin (errorsFor p hc.2) with
    | none =>
      rw [hpm] at h
      injection h with h
      exact h.symm
    | some b =>
      rw [hpm] at h
      cases hl : identifyLoop p rest with
      | ok m => rw [hl] at h; exact absurd h (by simp [Except.map])
      | error e' =>
        rw [hl] at h
        have he : e' = e := by
          have : (Except.error e' : Except PErr (List (String × String))) = .error e := h
          injection this with h'
        exact he ▸ ih e' hl

lemma stepH_error (t p : Table) (xv yv : ℚ) (st : Option String × Option ℚ)
    (hr : String × String) (e : PErr) (h : stepH t p xv yv st hr = .error e) :
    e = .keyError ∨ e = .valueError := by
  unfold stepH at h
  by_cases hmem : hr.2 ∈ p.colNames
  · rw [if_pos hmem] at h
    cases htv : t.getCol hr.1 with
    | none => simp only [htv] at h; injection h with h; exact Or.inl h.symm
    | some tv =>
      simp only [htv] at h
      cases hpv : p.getCol hr.2 with
      | none => simp only [hpv] at h; injection h with h; exact Or.inl h.symm
      | some pv =>
        simp only [hpv] at h
        cases hma : maxAbs (absDiffs tv pv) with
        | none => simp only [hma] at h; injection h with h; exact Or.inr h.symm
        | some m =>
          simp only [hma] at h
          cases hmr : matchRows p.xs pv xv with
          | nil => simp only [hmr] at h; exact absurd h (by simp)
          | cons v rest =>
            simp only [hmr] at h
            by_cases hg : (yv - v) ^ 2 ≤ 2 * m ^ 2 ∧ devLt |yv - v| st.2 = true
            · rw [if_pos hg] at h; exact absurd h (by simp)
            · rw [if_neg hg] at h; exact absurd h (by simp)
  · rw [if_neg hmem] at h
    exact absurd h (by simp)

lemma runBest_error (t p : Table) (xv yv : ℚ) (best : List (String × String)) :
    ∀ st e, runBest t p xv yv st best = .error e → e = .keyError ∨ e = .valueError := by
  induction best with
  | nil => intro st e h; exact absurd h (by simp [runBest])
  | cons hr rest ih =>
    intro st e h
    unfold runBest at h
    cases hstep : stepH t p xv yv st hr with
    | ok st' => rw [hstep] at h; exact ih st' e h
    | error e' =>
      rw [hstep] at h
      have he : e' = e := by injection h with h'
      exact he ▸ stepH_error t p xv yv st hr e' hstep

lemma classifyRow_error (t p : Table) (best : List (String × String)) (xv yv : ℚ)
    (e : PErr) (h : classifyRow t p best xv yv = .error e) :
    e = .keyError ∨ e = .valueError := by
  unfold classifyRow at h
  cases hrb : runBest t p xv yv (none, none) best with
  | ok st => rw [hrb] at h; exact absurd h (by simp [Except.map])
  | error e' =>
    rw [hrb] at h
    have he : e' = e := by
      have : (Except.error e' : Except PErr ForecastRow) = .error e := h
      injection this with h'
    exact he ▸ runBest_error t p xv yv best (none, none) e' hrb

lemma classifyAll_error (t p : Table) (best : List (String × String)) :
    ∀ (obs : List (ℚ × ℚ)) e, classifyAll t p best obs = .error e →
      e = .keyError ∨ e = .valueError := by
  intro obs
  induction obs with
  | nil => intro e h; exact absurd h (by simp [classifyAll])
  | cons o os ih =>
    intro e h
    unfold classifyAll at h
    cases hrow : classifyRow t p best o.1 o.2 with
    | ok r =>
      rw [hrow] at h
      cases hrest : classifyAll t p best os with
      | ok rs => rw [hrest] at h; exact absurd h (by simp)
      | error e' =>
        rw [hrest] at h
        have he : e' = e := by injection h with h'
        exact he ▸ ih e' hrest
    | error e' =>
      rw [hrow] at h
      have he : e' = e := by injection h with h'
      exact he ▸ classifyRow_error t p best o.1 o.2 e' hrow

/-! ## The per-observation loop -/

lemma classifyAll_ok (t p : Table) (best : List (String × String))
    (hok : ∀ hr ∈ best, RowOK t p hr) (obs : List (ℚ × ℚ)) :
    ∃ res, classifyAll t p best obs = .ok res ∧ res.length = obs.length ∧
      ∀ pr ∈ obs.zip res,
        pr.2.x = pr.1.1 ∧ pr.2.y = pr.1.2 ∧
        (candList t p pr.1.1 pr.1.2 best = [] → pr.2 = ⟨pr.1.1, pr.1.2, none, none⟩) := by
  induction obs with
  | nil => exact ⟨[], rfl, rfl, by simp⟩
  | cons o os ih =>
    obtain ⟨res, hres, hlen, hall⟩ := ih
    have hrow := classifyRow_char t p best o.1 o.2 hok
    refine ⟨⟨o.1, o.2, (firstMin Prod.snd (candList t p o.1 o.2 best)).map Prod.snd,
      (firstMin Prod.snd (candList t p o.1 o.2 best)).map Prod.fst⟩ :: res, ?_,
      by simp [hlen], ?_⟩
    · have hstep : classifyAll t p best (o :: os) =
        match classifyRow t p best o.1 o.2 with
        | .ok r =>
          match classifyAll t p best os with
          | .ok rs => .ok (r :: rs)
          | .error e => .error e
        | .error e => .error e := rfl
      rw [hstep, hrow, hres]
    · intro pr hpr
      rw [List.zip_cons_cons] at hpr
      rcases List.mem_cons.1 hpr with rfl | hpr
      · refine ⟨rfl, rfl, ?_⟩
        intro hcl
        rw [hcl]
        rfl
      · exact hall pr hpr

/-! ## Monotonicity in the margin constant -/

lemma filterMap_length_mono {α β : Type} (f g : α → Option β) (l : List α)
    (h : ∀ a ∈ l, ∀ b, f a = some b → g a = some b) :
    (l.filterMap f).length ≤ (l.filterMap g).length := by
  induction l with
  | nil => exact le_rfl
  | cons a rest ih =>
    have hrest := ih (fun z hz => h z (List.mem_cons_of_mem _ hz))
    cases hfa : f a with
    | none =>
      rw [List.filterMap_cons_none hfa]
      cases hga : g a with
      | none => rw [List.filterMap_cons_none hga]; exact hrest
      | some b =>
        rw [List.filterMap_cons_some hga, List.length_cons]
        exact le_trans hrest (Nat.le_succ _)
    | some b =>
      rw [List.filterMap_cons_some hfa,
        List.filterMap_cons_some (h a (List.mem_cons_self _ _) b hfa),
        List.length_cons, List.length_cons]
      exact Nat.succ_le_succ hrest

lemma candOfGen_mono (sc sc' : String → ℚ) (hmono : ∀ h, sc h ≤ sc' h)
    (t p : Table) (xv yv : ℚ) (hr : String × String) (c : String × ℚ)
    (h : candOfGen sc t p xv yv hr = some c) : candOfGen sc' t p xv yv hr = some c := by
  unfold candOfGen at h ⊢
  by_cases hmem : hr.2 ∈ p.colNames
  · rw [if_pos hmem] at h ⊢
    cases htv : t.getCol hr.1 with
    | none => simp only [htv] at h; exact absurd h (by simp)
    | some tv =>
      simp only [htv] at h ⊢
      cases hpv : p.getCol hr.2 with
      | none => simp only [hpv] at h; exact absurd h (by simp)
      | some pv =>
        simp only [hpv] at h ⊢
        cases hma : maxAbs (absDiffs tv pv) with
        | none => simp only [hma] at h; exact absurd h (by simp)
        | some m =>
          simp only [hma] at h ⊢
          cases hmr : matchRows p.xs pv xv with
          | nil => simp only [hmr] at h; exact absurd h (by simp)
          | cons v rest2 =>
            simp only [hmr] at h ⊢
            by_cases hg : (yv - v) ^ 2 ≤ sc hr.1 * m ^ 2
            · rw [if_pos hg] at h
              have hg' : (yv - v) ^ 2 ≤ sc' hr.1 * m ^ 2 :=
                le_trans hg (mul_le_mul_of_nonneg_right (hmono hr.1) (sq_nonneg m))
              rw [if_pos hg']
              exact h
            · rw [if_neg hg] at h
              exact absurd h (by simp)
  · rw [if_neg hmem] at h
    exact absurd h (by simp)

lemma firstMin_isSome {α : Type} (f : α → ℚ) (l : List α) :
    (firstMin f l).isSome = true ↔ l ≠ [] := by
  cases l <;> simp [firstMin]

/-! ## Further support lemmas -/

lemma absDiffs_self (v : List ℚ) : ∀ x ∈ absDiffs v v, x = 0 := by
  induction v with
  | nil => simp [absDiffs]
  | cons a tl ih =>
    intro x hx
    rcases List.mem_cons.1 hx with rfl | hx
    · simp
    · exact ih x hx

lemma maxAbs_self_zero (v : List ℚ) (hv : v ≠ []) : maxAbs (absDiffs v v) = some 0 := by
  have hne : absDiffs v v ≠ [] := absDiffs_ne_nil v v hv hv
  obtain ⟨m, hm⟩ : ∃ m, maxAbs (absDiffs v v) = some m := by
    cases h : maxAbs (absDiffs v v) with
    | none => exact absurd ((maxAbs_eq_none_iff _).1 h) hne
    | some m => exact ⟨m, rfl⟩
  obtain ⟨hmem, _⟩ := maxAbs_spec _ _ hm
  rw [hm, absDiffs_self v m hmem]

lemma candOfGen_snd_nonneg (sc : String → ℚ) (t p : Table) (xv yv : ℚ)
    (hr : String × String) (c : String × ℚ)
    (h : candOfGen sc t p xv yv hr = some c) : 0 ≤ c.2 := by
  unfold candOfGen at h
  by_cases hmem : hr.2 ∈ p.colNames
  · rw [if_pos hmem] at h
    cases htv : t.getCol hr.1 with
    | none => simp only [htv] at h; exact absurd h (by simp)
    | some tv =>
      simp only [htv] at h
      cases hpv : p.getCol hr.2 with
      | none => simp only [hpv] at h; exact absurd h (by simp)
      | some pv =>
        simp only [hpv] at h
        cases hma : maxAbs (absDiffs tv pv) with
        | none => simp only [hma] at h; exact absurd h (by simp)
        | some m =>
          simp only [hma] at h
          cases hmr : matchRows p.xs pv xv with
          | nil => simp only [hmr] at h; exact absurd h (by simp)
          | cons v rest =>
            simp only [hmr] at h
            by_cases hg : (yv - v) ^ 2 ≤ sc hr.1 * m ^ 2
            · rw [if_pos hg] at h
              have hc : c = (hr.2, |yv - v|) := (Option.some.inj h).symm
              rw [hc]
              exact abs_nonneg _
            · rw [if_neg hg] at h
              exact absurd h (by simp)
  · rw [if_neg hmem] at h
    exact absurd h (by simp)

lemma Frame.getColOfMem (f : Frame) (n : String) (hn : n ∈ f.names) :
    ∃ v, f.getCol n = some v := by
  obtain ⟨c, hc, hceq⟩ := List.mem_map.1 hn
  have hfind : (f.cols.find? (fun c => c.1 = n)).isSome := by
    rw [List.find?_isSome]
    exact ⟨c, hc, by simp [hceq]⟩
  obtain ⟨c', hc'⟩ := Option.isSome_iff_exists.1 hfind
  refine ⟨c'.2, ?_⟩
  unfold Frame.getCol
  rw [hc']
  rfl

lemma identifyBestSalesPatterns_error (training pattern : Option Table) (e : PErr)
    (h : identifyBestSalesPatterns training pattern = .error e) : e = .valueError := by
  cases training with
  | none => exact absurd h (by simp [identifyBestSalesPatterns])
  | some t =>
    cases pattern with
    | none => exact absurd h (by simp [identifyBestSalesPatterns])
    | some p => exact identifyLoop_error p t.cols e h

lemma runBest_append (t p : Table) (xv yv : ℚ) (l1 l2 : List (String × String)) :
    ∀ st, runBest t p xv yv st (l1 ++ l2) =
      match runBest t p xv yv st l1 with
      | .ok st' => runBest t p xv yv st' l2
      | .error e => .error e := by
  induction l1 with
  | nil => intro st; rfl
  | cons hr rest ih =>
    intro st
    have hcons : ∀ l, runBest t p xv yv st (hr :: l) =
        match stepH t p xv yv st hr with
        | .ok st' => runBest t p xv yv st' l
        | .error e => .error e := fun l => rfl
    rw [List.cons_append, hcons (rest ++ l2), hcons rest]
    cases stepH t p xv yv st hr with
    | ok st' => exact ih st'
    | error e => rfl

/-! ## Claim theorems -/

/-- C1: for non-empty aligned historical and reference tables,
`identify_best_sales_patterns` maps each historical series, in order, to the
reference column minimising the sum of squared differences, and on ties the
reference column appearing earlier in the reference table's column order is
chosen (every strictly earlier column has strictly larger error). -/
theorem C1_best_pattern_selection (t p : Table) (ht : t.WF) (hp : p.WF)
    (halign : t.xs = p.xs) (ht0 : t.cols ≠ []) (hp0 : p.cols ≠ []) :
    ∃ m, identifyBestSalesPatterns (some t) (some p) = .ok m ∧
      m.length = t.cols.length ∧
      ∀ pr ∈ t.cols.zip m, pr.2.1 = pr.1.1 ∧
        ∃ c1 pc c2, p.cols = c1 ++ pc :: c2 ∧ pr.2.2 = pc.1 ∧
          (∀ q ∈ p.cols, sqErr pr.1.2 pc.2 ≤ sqErr pr.1.2 q.2) ∧
          ∀ q ∈ c1, sqErr pr.1.2 pc.2 < sqErr pr.1.2 q.2 :=
  identifyLoop_ok p hp0 t.cols

/-- C1 witness: a concrete aligned pair of tables, where `h1` is matched to
`r1` (error 0) rather than `r2`. -/
theorem C1_best_pattern_selection_witness :
    ∃ m, identifyBestSalesPatterns
        (some ⟨[1, 2], [("h1", [10, 20])]⟩) (some ⟨[1, 2], [("r1", [10, 20]), ("r2", [0, 0])]⟩) =
        .ok m ∧
      m.length = 1 ∧
      ∀ pr ∈ ([("h1", [(10 : ℚ), 20])]).zip m, pr.2.1 = pr.1.1 ∧
        ∃ c1 pc c2, [("r1", [(10 : ℚ), 20]), ("r2", [0, 0])] = c1 ++ pc :: c2 ∧ pr.2.2 = pc.1 ∧
          (∀ q ∈ [("r1", [(10 : ℚ), 20]), ("r2", [0, 0])], sqErr pr.1.2 pc.2 ≤ sqErr pr.1.2 q.2) ∧
          ∀ q ∈ c1, sqErr pr.1.2 pc.2 < sqErr pr.1.2 q.2 :=
  C1_best_pattern_selection ⟨[1, 2], [("h1", [10, 20])]⟩
    ⟨[1, 2], [("r1", [10, 20]), ("r2", [0, 0])]⟩
    ⟨by decide, by decide⟩ ⟨by decide, by decide⟩ (by decide) (by decide) (by decide)

/-- C2: for one observation, a `best_patterns` entry contributes a candidate
exactly when its pattern column is present, some reference row's x equals the
observation's x exactly (the deviation is taken against the first such row;
no interpolation), and the deviation is within `sqrt 2` times the maximal
aligned historical/reference difference; the emitted row carries the
candidate of smallest deviation, an earlier candidate winning ties (every
candidate strictly before the chosen one has strictly larger deviation). -/
theorem C2_classification_rule (t p : Table) (best : List (String × String)) (xv yv : ℚ)
    (ht : t.WF) (hp : p.WF)
    (hb : ∀ hr ∈ best, hr.2 ∈ p.colNames → hr.1 ∈ t.colNames) :
    (∀ hr ∈ best, ∀ c, candOf t p xv yv hr = some c ↔
      (hr.2 ∈ p.colNames ∧ ∃ tv pv m v rest, t.getCol hr.1 = some tv ∧
        p.getCol hr.2 = some pv ∧ maxAbs (absDiffs tv pv) = some m ∧
        matchRows p.xs pv xv = v :: rest ∧ c = (hr.2, |yv - v|) ∧
        (|(yv : ℝ) - (v : ℝ)| ≤ Real.sqrt 2 * (m : ℝ))))
    ∧ (candList t p xv yv best = [] →
        classifyRow t p best xv yv = .ok ⟨xv, yv, none, none⟩)
    ∧ (∀ l1 c l2, candList t p xv yv best = l1 ++ c :: l2 →
        (∀ c' ∈ candList t p xv yv best, c.2 ≤ c'.2) →
        (∀ c' ∈ l1, c.2 < c'.2) →
        classifyRow t p best xv yv = .ok ⟨xv, yv, some c.2, some c.1⟩) := by
  have hok : ∀ hr ∈ best, RowOK t p hr := fun hr hhr => rowOK_of_WF t p hr ht hp (hb hr hhr)
  refine ⟨?_, ?_, ?_⟩
  · intro hr hhr c
    constructor
    · intro h
      unfold candOf candOfGen at h
      by_cases hmem : hr.2 ∈ p.colNames
      · obtain ⟨tv, pv, htv, hpv, hne⟩ := hok hr hhr hmem
        obtain ⟨m, hm⟩ : ∃ m, maxAbs (absDiffs tv pv) = some m := by
          cases h' : maxAbs (absDiffs tv pv) with
          | none => exact absurd ((maxAbs_eq_none_iff _).1 h') hne
          | some m => exact ⟨m, rfl⟩
        simp only [if_pos hmem, htv, hpv, hm] at h
        cases hmr : matchRows p.xs pv xv with
        | nil => simp only [hmr] at h; exact absurd h (by simp)
        | cons v rest =>
          simp only [hmr] at h
          by_cases hg : (yv - v) ^ 2 ≤ 2 * m ^ 2
          · rw [if_pos hg] at h
            have hc : c = (hr.2, |yv - v|) := (Option.some.inj h).symm
            have hm0 : 0 ≤ m := by
              obtain ⟨hmmem, _⟩ := maxAbs_spec _ _ hm
              exact absDiffs_nonneg tv pv m hmmem
            have hgR : |(yv : ℝ) - (v : ℝ)| ≤ Real.sqrt 2 * (m : ℝ) :=
              (gate_iff_sqrt2R yv v m hm0).1 hg
            exact ⟨hmem, tv, pv, m, v, rest, htv, hpv, hm, hmr, hc, hgR⟩
          · rw [if_neg hg] at h
            exact absurd h (by simp)
      · rw [if_neg hmem] at h
        exact absurd h (by simp)
    · rintro ⟨hmem, tv, pv, m, v, rest, htv, hpv, hm, hmr, hc, hgR⟩
      unfold candOf candOfGen
      have hm0 : 0 ≤ m := by
        obtain ⟨hmmem, _⟩ := maxAbs_spec _ _ hm
        exact absDiffs_nonneg tv pv m hmmem
      have hg : (yv - v) ^ 2 ≤ 2 * m ^ 2 := (gate_iff_sqrt2R yv v m hm0).2 hgR
      simp only [if_pos hmem, htv, hpv, hm, hmr]
      rw [if_pos hg, hc]
  · intro hcl
    rw [classifyRow_char t p best xv yv hok, hcl]
    rfl
  · intro l1 c l2 hdec hmin hstrict
    rw [classifyRow_char t p best xv yv hok, hdec]
    rw [firstMin_first Prod.snd l1 c l2 (hdec ▸ hmin) hstrict]
    rfl

/-- C2 witness: with identical historical and reference curves, the
observation `(2, 20)` is classified to `r1` with deviation `0`. -/
theorem C2_classification_rule_witness :
    classifyRow ⟨[1, 2], [("h1", [10, 20])]⟩ ⟨[1, 2], [("r1", [10, 20]), ("r2", [0, 0])]⟩
      [("h1", "r1")] 2 20 = .ok ⟨2, 20, some 0, some "r1"⟩ := by
  have hcl : candList ⟨[1, 2], [("h1", [10, 20])]⟩ ⟨[1, 2], [("r1", [10, 20]), ("r2", [0, 0])]⟩
      2 20 [("h1", "r1")] = [] ++ ("r1", 0) :: [] := by
    simp [candList, candOf, candOfGen, Table.colNames, Table.getCol, maxAbs, absDiffs,
      matchRows]
  have h := (C2_classification_rule ⟨[1, 2], [("h1", [10, 20])]⟩
    ⟨[1, 2], [("r1", [10, 20]), ("r2", [0, 0])]⟩ [("h1", "r1")] 2 20
    ⟨by decide, by decide⟩ ⟨by decide, by decide⟩ (by decide)).2.2 [] ("r1", 0) []
    hcl (by rw [hcl]; simp) (by simp)
  exact h

/-- C3: the tolerance against which a deviation is gated is exactly
`sqrt 2` times the maximum (over aligned rows) of the absolute
historical-vs-reference differences: `maxAbs` really computes that maximum,
and a candidate is produced iff the deviation is within `sqrt 2 ·` it. -/
theorem C3_tolerance_sqrt2 (t p : Table) (xv yv : ℚ) (hr : String × String)
    (tv pv : List ℚ) (m v : ℚ) (rest : List ℚ)
    (hmem : hr.2 ∈ p.colNames) (htv : t.getCol hr.1 = some tv)
    (hpv : p.getCol hr.2 = some pv) (hm : maxAbs (absDiffs tv pv) = some m)
    (hmr : matchRows p.xs pv xv = v :: rest) :
    (m ∈ absDiffs tv pv ∧ ∀ z ∈ absDiffs tv pv, z ≤ m) ∧
    (candOf t p xv yv hr = some (hr.2, |yv - v|) ↔
      |(yv : ℝ) - (v : ℝ)| ≤ Real.sqrt 2 * (m : ℝ)) := by
  obtain ⟨hmmem, hmall⟩ := maxAbs_spec _ _ hm
  have hm0 : 0 ≤ m := absDiffs_nonneg tv pv m hmmem
  refine ⟨⟨hmmem, hmall⟩, ?_⟩
  have hgate : candOf t p xv yv hr = some (hr.2, |yv - v|) ↔ (yv - v) ^ 2 ≤ 2 * m ^ 2 := by
    unfold candOf candOfGen
    simp only [if_pos hmem, htv, hpv, hm, hmr]
    constructor
    · intro h
      by_cases hg : (yv - v) ^ 2 ≤ 2 * m ^ 2
      · exact hg
      · rw [if_neg hg] at h
        exact absurd h (by simp)
    · intro hg
      rw [if_pos hg]
  rw [hgate]
  exact gate_iff_sqrt2R yv v m hm0

/-- C3 witness: with historical column `[10, 20]` against reference `[0, 0]`,
the maximal aligned difference is `20` and the accepted deviation `20`
satisfies `20 ≤ sqrt 2 * 20`. -/
theorem C3_tolerance_sqrt2_witness :
    |((20 : ℚ) : ℝ) - ((0 : ℚ) : ℝ)| ≤ Real.sqrt 2 * ((20 : ℚ) : ℝ) :=
  ((C3_tolerance_sqrt2 ⟨[1, 2], [("h1", [10, 20])]⟩
      ⟨[1, 2], [("r2", [0, 0])]⟩ 2 20 ("h1", "r2") [10, 20] [0, 0] 20 0 []
      (by decide) (by decide) (by decide)
      (by simp [maxAbs, absDiffs]; norm_num [max_def])
      (by simp [matchRows])).2).1
    (by simp [candOf, candOfGen, Table.colNames, Table.getCol, maxAbs, absDiffs,
      matchRows]; norm_num [max_def])

/-- C4: the classification loop emits exactly one result per observation, in
input order, carrying the observation's x and y; an observation with no
accepted candidate still yields a row, with `ideal = none` and the `delta`
sentinel, and the batch is not an error. -/
theorem C4_one_result_per_observation (t p : Table) (best : List (String × String))
    (obs : List (ℚ × ℚ)) (ht : t.WF) (hp : p.WF)
    (hb : ∀ hr ∈ best, hr.2 ∈ p.colNames → hr.1 ∈ t.colNames) :
    ∃ res, classifyAll t p best obs = .ok res ∧ res.length = obs.length ∧
      ∀ pr ∈ obs.zip res, pr.2.x = pr.1.1 ∧ pr.2.y = pr.1.2 ∧
        (candList t p pr.1.1 pr.1.2 best = [] → pr.2 = ⟨pr.1.1, pr.1.2, none, none⟩) :=
  classifyAll_ok t p best (fun hr hhr => rowOK_of_WF t p hr ht hp (hb hr hhr)) obs

/-- C4 witness: the observation `(2, 21)` (outside the zero tolerance) still
produces a row, with no assignment, and the batch succeeds. -/
theorem C4_one_result_per_observation_witness :
    ∃ res, classifyAll ⟨[1, 2], [("h1", [10, 20])]⟩
        ⟨[1, 2], [("r1", [10, 20]), ("r2", [0, 0])]⟩ [("h1", "r1")] [(2, 21)] = .ok res ∧
      res.length = 1 ∧
      ∀ pr ∈ ([((2 : ℚ), (21 : ℚ))]).zip res, pr.2.x = pr.1.1 ∧ pr.2.y = pr.1.2 ∧
        (candList ⟨[1, 2], [("h1", [10, 20])]⟩ ⟨[1, 2], [("r1", [10, 20]), ("r2", [0, 0])]⟩
            pr.1.1 pr.1.2 [("h1", "r1")] = [] →
          pr.2 = ⟨pr.1.1, pr.1.2, none, none⟩) :=
  C4_one_result_per_observation ⟨[1, 2], [("h1", [10, 20])]⟩
    ⟨[1, 2], [("r1", [10, 20]), ("r2", [0, 0])]⟩ [("h1", "r1")] [(2, 21)]
    ⟨by decide, by decide⟩ ⟨by decide, by decide⟩ (by decide)

/-- C5 counterexample: with the historical table missing,
`identify_best_sales_patterns` returns the empty mapping but signals no error
of any kind to its caller; and with a present but curve-less reference table
(and a non-empty historical table) it raises a `ValueError` past the component
boundary instead of returning an empty mapping with a missing-data signal. -/
theorem C5_counterexample :
    identifyBestSalesPatterns none (some ⟨[1], [("r1", [1])]⟩) = .ok [] ∧
    (∀ e, identifyBestSalesPatterns none (some ⟨[1], [("r1", [1])]⟩) ≠ .error e) ∧
    identifyBestSalesPatterns (some ⟨[1], [("h1", [1])]⟩) (some ⟨[1], []⟩) =
      .error .valueError := by
  refine ⟨rfl, ?_, rfl⟩
  intro e h
  exact Except.noConfusion h

/-- C5 amended: when either table fails to load, the selection returns an
empty mapping and signals nothing to its caller (the error is only logged);
when both tables load but the reference table has no curve columns while the
historical table has at least one series, a `ValueError` escapes the
component instead. -/
theorem C5_missing_data_amended :
    (∀ x : Option Table, identifyBestSalesPatterns none x = .ok [] ∧
      identifyBestSalesPatterns x none = .ok []) ∧
    ∀ t p : Table, p.cols = [] → t.cols ≠ [] →
      identifyBestSalesPatterns (some t) (some p) = .error .valueError := by
  constructor
  · intro x
    cases x with
    | none => exact ⟨rfl, rfl⟩
    | some t => exact ⟨rfl, rfl⟩
  · intro t p hp ht
    show identifyLoop p t.cols = _
    cases hc : t.cols with
    | nil => exact absurd hc ht
    | cons a rest =>
      have herr : errorsFor p a.2 = [] := by
        unfold errorsFor
        rw [hp]
        rfl
      show (match pyMin (errorsFor p a.2) with
        | some best => (identifyLoop p rest).map (fun m => (a.1, best.1) :: m)
        | none => .error .valueError) = _
      rw [herr]
      rfl

/-- C6: the whole run fails with the schema-level `InvalidSalesDataError`
("Missing required columns") exactly when the test frame lacks an x or y
column; the check happens before any row is classified (the failing run
produces no forecast row), and the failure is a value returned to the caller,
not a crash of the remaining pipeline. -/
theorem C6_invalid_input_schema_check (test : Frame) (training pattern : Option Table) :
    loadAndPredictWeeklySales test training pattern = .error .missingColumns ↔
      ¬ ("x" ∈ test.names ∧ "y" ∈ test.names) := by
  by_cases hs : "x" ∈ test.names ∧ "y" ∈ test.names
  · simp only [loadAndPredictWeeklySales, if_pos hs]
    constructor
    · intro h
      exfalso
      cases hid : identifyBestSalesPatterns training pattern with
      | error e =>
        simp only [hid] at h
        have he : e = .valueError := identifyBestSalesPatterns_error training pattern e hid
        rw [he] at h
        have : PErr.valueError = PErr.missingColumns := by injection h
        exact PErr.noConfusion this
      | ok best =>
        simp only [hid] at h
        cases training with
        | none =>
          have : PErr.missingTables = PErr.missingColumns := by injection h
          exact PErr.noConfusion this
        | some t =>
          cases pattern with
          | none =>
            have : PErr.missingTables = PErr.missingColumns := by injection h
            exact PErr.noConfusion this
          | some p =>
            obtain ⟨xc, hxc⟩ := Frame.getColOfMem test "x" hs.1
            obtain ⟨yc, hyc⟩ := Frame.getColOfMem test "y" hs.2
            simp only [hxc, hyc] at h
            rcases classifyAll_error t p best (xc.zip yc) _ h with h' | h' <;>
              exact PErr.noConfusion h'
    · intro h
      exact absurd hs h
  · simp only [loadAndPredictWeeklySales, if_neg hs]
    exact ⟨fun _ => hs, fun _ => trivial⟩

/-- C7 counterexample: in these tables `r2` equals `h2` exactly and the
observation `(1, 7)` matches `r2`'s value at `x = 1`, yet the emitted row
assigns `r1` (an earlier series' candidate with the same zero deviation), not
`r2`: the claim's "that curve assigned" fails on ties. -/
theorem C7_counterexample :
    identifyBestSalesPatterns (some ⟨[1, 2], [("h1", [7, 0]), ("h2", [7, 9])]⟩)
        (some ⟨[1, 2], [("r1", [7, 0]), ("r2", [7, 9])]⟩) = .ok [("h1", "r1"), ("h2", "r2")] ∧
    Table.getCol ⟨[1, 2], [("r1", [7, 0]), ("r2", [7, 9])]⟩ "r2" =
      Table.getCol ⟨[1, 2], [("h1", [7, 0]), ("h2", [7, 9])]⟩ "h2" ∧
    matchRows [1, 2] [7, 9] 1 = [7] ∧
    classifyRow ⟨[1, 2], [("h1", [7, 0]), ("h2", [7, 9])]⟩
        ⟨[1, 2], [("r1", [7, 0]), ("r2", [7, 9])]⟩ [("h1", "r1"), ("h2", "r2")] 1 7 =
      .ok ⟨1, 7, some 0, some "r1"⟩ ∧
    some "r1" ≠ some "r2" := by
  refine ⟨?_, rfl, ?_, ?_, by decide⟩
  · simp [identifyBestSalesPatterns, identifyLoop, pyMin, pyMinFold, errorsFor, sqErr,
      Except.map]
    norm_num
  · simp [matchRows]
  · simp [classifyRow, runBest, stepH, Table.colNames, Table.getCol, maxAbs, absDiffs,
      matchRows, devLt, Except.map, max_def]

/-- C7 amended: if a historical series' assigned reference curve equals it
exactly, `max_dev` for that pair is `0`, and an observation whose y equals the
curve's value at a grid x is accepted as a candidate with deviation `0`; the
emitted row then has deviation `0` and some curve assigned — the curve itself
whenever no earlier series also attains deviation `0` (first candidate wins
ties). -/
theorem C7_self_consistency_amended (t p : Table) (best : List (String × String))
    (hr : String × String) (v : List ℚ) (xv yv : ℚ) (tail : List ℚ)
    (ht : t.WF) (hp : p.WF) (hb : ∀ z ∈ best, z.2 ∈ p.colNames → z.1 ∈ t.colNames)
    (hhr : hr ∈ best) (hmem : hr.2 ∈ p.colNames)
    (htv : t.getCol hr.1 = some v) (hpv : p.getCol hr.2 = some v)
    (hv0 : v ≠ []) (hmr : matchRows p.xs v xv = yv :: tail) :
    maxAbs (absDiffs v v) = some 0 ∧
    candOf t p xv yv hr = some (hr.2, 0) ∧
    (∃ r', classifyRow t p best xv yv = .ok ⟨xv, yv, some 0, some r'⟩) ∧
    ∀ b1 b2, best = b1 ++ hr :: b2 →
      (∀ z ∈ b1, ∀ c, candOf t p xv yv z = some c → c.2 ≠ 0) →
      classifyRow t p best xv yv = .ok ⟨xv, yv, some 0, some hr.2⟩ := by
  have hok : ∀ z ∈ best, RowOK t p z := fun z hz => rowOK_of_WF t p z ht hp (hb z hz)
  have hma : maxAbs (absDiffs v v) = some 0 := maxAbs_self_zero v hv0
  have hcand : candOf t p xv yv hr = some (hr.2, 0) := by
    unfold candOf candOfGen
    simp only [if_pos hmem, htv, hpv, hma, hmr]
    rw [if_pos (by simp)]
    simp
  have hnonneg : ∀ c ∈ candList t p xv yv best, 0 ≤ c.2 := by
    intro c hc
    obtain ⟨z, _, hz⟩ := List.mem_filterMap.1 hc
    exact candOfGen_snd_nonneg _ t p xv yv z c hz
  refine ⟨hma, hcand, ?_, ?_⟩
  · have hmem0 : (hr.2, (0 : ℚ)) ∈ candList t p xv yv best :=
      List.mem_filterMap.2 ⟨hr, hhr, hcand⟩
    have hne : candList t p xv yv best ≠ [] := List.ne_nil_of_mem hmem0
    obtain ⟨r, l1, l2, hfm, hdecomp, hminr, _⟩ := firstMin_spec Prod.snd _ hne
    have hrmem : r ∈ candList t p xv yv best := by
      rw [hdecomp]
      exact List.mem_append_right _ (List.mem_cons_self _ _)
    have hr2 : r.2 = 0 := le_antisymm (hminr _ hmem0) (hnonneg r hrmem)
    refine ⟨r.1, ?_⟩
    rw [classifyRow_char t p best xv yv hok, hfm]
    simp [hr2]
  · intro b1 b2 hdec hb1
    have hcl : candList t p xv yv best =
        candList t p xv yv b1 ++ (hr.2, 0) :: candList t p xv yv b2 := by
      rw [hdec]
      unfold candList
      rw [List.filterMap_append, List.filterMap_cons_some hcand]
    have hfm : firstMin Prod.snd (candList t p xv yv best) = some (hr.2, (0 : ℚ)) := by
      rw [hcl]
      apply firstMin_first
      · intro c hc
        have hc' : c ∈ candList t p xv yv best := by
          rw [hcl]
          exact hc
        exact hnonneg c hc'
      · intro c hc
        obtain ⟨z, hz, hcz⟩ := List.mem_filterMap.1 hc
        have h0 : c.2 ≠ 0 := hb1 z hz c hcz
        have hge : 0 ≤ c.2 := candOfGen_snd_nonneg _ t p xv yv z c hcz
        exact lt_of_le_of_ne hge (Ne.symm h0)
    rw [classifyRow_char t p best xv yv hok, hfm]
    rfl

/-- C7 witness: with a historical series identical to its selected curve,
`max_dev = 0` and the on-curve observation `(2, 20)` is assigned that curve
with deviation `0`. -/
theorem C7_self_consistency_amended_witness :
    maxAbs (absDiffs [10, 20, 30] [10, 20, 30]) = some 0 ∧
    classifyRow ⟨[1, 2, 3], [("h1", [10, 20, 30])]⟩
        ⟨[1, 2, 3], [("r1", [10, 20, 30]), ("r2", [0, 0, 0])]⟩
        [("h1", "r1")] 2 20 = .ok ⟨2, 20, some 0, some "r1"⟩ := by
  have h := C7_self_consistency_amended ⟨[1, 2, 3], [("h1", [10, 20, 30])]⟩
    ⟨[1, 2, 3], [("r1", [10, 20, 30]), ("r2", [0, 0, 0])]⟩
    [("h1", "r1")] ("h1", "r1") [10, 20, 30] 2 20 []
    ⟨by decide, by decide⟩ ⟨by decide, by decide⟩ (by decide) (by decide) (by decide)
    rfl rfl (by decide) (by simp [matchRows])
  exact ⟨h.1, h.2.2.2 [] [] rfl (by simp)⟩

/-- C8: pointwise increasing the (squared) margin constants — hence each
tolerance `max_dev(h)` — never decreases the number of accepted candidates
for a fixed observation, and an observation assigned under the smaller
margins stays assigned under the larger ones; the source program is the
instance with constant margin 2 (i.e. `sqrt 2` on deviations). -/
theorem C8_tolerance_monotonicity (sc sc' : String → ℚ) (t p : Table)
    (best : List (String × String)) (xv yv : ℚ)
    (hmono : ∀ h, sc h ≤ sc' h) (ht : t.WF) (hp : p.WF)
    (hb : ∀ hr ∈ best, hr.2 ∈ p.colNames → hr.1 ∈ t.colNames) :
    (candListGen sc t p xv yv best).length ≤ (candListGen sc' t p xv yv best).length ∧
    (∀ row, classifyRowGen sc t p best xv yv = .ok row → row.ideal.isSome = true →
      ∃ row', classifyRowGen sc' t p best xv yv = .ok row' ∧ row'.ideal.isSome = true) ∧
    classifyRowGen (fun _ => 2) t p best xv yv = classifyRow t p best xv yv := by
  have hok : ∀ hr ∈ best, RowOK t p hr := fun hr hhr => rowOK_of_WF t p hr ht hp (hb hr hhr)
  have hlen : (candListGen sc t p xv yv best).length ≤
      (candListGen sc' t p xv yv best).length :=
    filterMap_length_mono _ _ best
      (fun a _ b hab => candOfGen_mono sc sc' hmono t p xv yv a b hab)
  refine ⟨hlen, ?_, (classifyRow_eq_gen t p best xv yv).symm⟩
  intro row hrow hsome
  have hchar := classifyRowGen_char sc t p best xv yv hok
  have hchar' := classifyRowGen_char sc' t p best xv yv hok
  rw [hchar] at hrow
  have hrow' : row = ⟨xv, yv,
      (firstMin Prod.snd (candListGen sc t p xv yv best)).map Prod.snd,
      (firstMin Prod.snd (candListGen sc t p xv yv best)).map Prod.fst⟩ :=
    (Except.ok.inj hrow).symm
  have hfm : (firstMin Prod.snd (candListGen sc t p xv yv best)).isSome = true := by
    rw [hrow'] at hsome
    simpa using hsome
  have hne : candListGen sc t p xv yv best ≠ [] := (firstMin_isSome _ _).1 hfm
  have hne' : candListGen sc' t p xv yv best ≠ [] := by
    intro hnil
    rw [hnil] at hlen
    exact hne (List.eq_nil_of_length_eq_zero (Nat.le_zero.1 (by simpa using hlen)))
  refine ⟨⟨xv, yv,
    (firstMin Prod.snd (candListGen sc' t p xv yv best)).map Prod.snd,
    (firstMin Prod.snd (candListGen sc' t p xv yv best)).map Prod.fst⟩, hchar', ?_⟩
  obtain ⟨r', hr'⟩ := Option.isSome_iff_exists.1 ((firstMin_isSome _ _).2 hne')
  show ((firstMin Prod.snd (candListGen sc' t p xv yv best)).map Prod.fst).isSome = true
  rw [hr']
  rfl

/-- C8 witness: raising the squared margin from 2 to 3 keeps at least as many
accepted candidates for the observation `(2, 21)`. -/
theorem C8_tolerance_monotonicity_witness :
    (candListGen (fun _ => (2 : ℚ)) ⟨[1, 2], [("h1", [10, 20])]⟩
        ⟨[1, 2], [("r1", [10, 20]), ("r2", [0, 0])]⟩ 2 21 [("h1", "r1")]).length ≤
      (candListGen (fun _ => (3 : ℚ)) ⟨[1, 2], [("h1", [10, 20])]⟩
        ⟨[1, 2], [("r1", [10, 20]), ("r2", [0, 0])]⟩ 2 21 [("h1", "r1")]).length :=
  (C8_tolerance_monotonicity (fun _ => 2) (fun _ => 3) ⟨[1, 2], [("h1", [10, 20])]⟩
    ⟨[1, 2], [("r1", [10, 20]), ("r2", [0, 0])]⟩ [("h1", "r1")] 2 21
    (fun _ => by norm_num) ⟨by decide, by decide⟩ ⟨by decide, by decide⟩ (by decide)).1

/-- C9: when row `j` is the first row of the reference table whose x equals
the observation's x, the loop body computes the deviation against column
value `pv[j]` — the first matching row in table order — and the outcome is
independent of any later row with the same x. -/
theorem C9_first_matching_row (t p : Table) (xv yv : ℚ) (st : Option String × Option ℚ)
    (hr : String × String) (tv pv : List ℚ) (m : ℚ) (j : ℕ)
    (hmem : hr.2 ∈ p.colNames) (htv : t.getCol hr.1 = some tv)
    (hpv : p.getCol hr.2 = some pv) (hm : maxAbs (absDiffs tv pv) = some m)
    (hj : j < p.xs.length) (hjp : j < pv.length) (hx : p.xs.get ⟨j, hj⟩ = xv)
    (hbefore : ∀ i (hi : i < j), p.xs.get ⟨i, lt_trans hi hj⟩ ≠ xv) :
    stepH t p xv yv st hr =
      if (yv - pv.get ⟨j, hjp⟩) ^ 2 ≤ 2 * m ^ 2 ∧
          devLt |yv - pv.get ⟨j, hjp⟩| st.2 = true then
        .ok (some hr.2, some |yv - pv.get ⟨j, hjp⟩|)
      else .ok st := by
  obtain ⟨rest, hmr⟩ := matchRows_first xv j p.xs pv hj hjp hx hbefore
  unfold stepH
  simp only [if_pos hmem, htv, hpv, hm, hmr]

/-- C9 witness: with x value `1` duplicated in the reference grid (rows `5`
then `9`), the observation `(1, 5)` is matched against the first row's value
`5` (deviation `0`), not the later `9`. -/
theorem C9_first_matching_row_witness :
    stepH ⟨[1, 1], [("h1", [5, 9])]⟩ ⟨[1, 1], [("r1", [5, 9])]⟩ 1 5 (none, none)
      ("h1", "r1") = .ok (some "r1", some 0) := by
  have h := C9_first_matching_row ⟨[1, 1], [("h1", [5, 9])]⟩ ⟨[1, 1], [("r1", [5, 9])]⟩
    1 5 (none, none) ("h1", "r1") [5, 9] [5, 9] 0 0
    (by decide) rfl rfl (by simp [maxAbs, absDiffs, max_def]) (by decide) (by decide)
    rfl (fun i hi => absurd hi (Nat.not_lt_zero i))
  rw [h]
  norm_num [devLt]

/-- C10: a `best_patterns` entry whose pattern column is not a column of the
reference table is skipped silently: removing it from the iteration changes
nothing, no error is raised, and the remaining entries' candidates are still
considered. -/
theorem C10_unknown_pattern_skipped (t p : Table) (best1 best2 : List (String × String))
    (hr : String × String) (xv yv : ℚ) (hmem : hr.2 ∉ p.colNames) :
    classifyRow t p (best1 ++ hr :: best2) xv yv =
      classifyRow t p (best1 ++ best2) xv yv := by
  unfold classifyRow
  rw [runBest_append t p xv yv best1 (hr :: best2) (none, none),
    runBest_append t p xv yv best1 best2 (none, none)]
  cases runBest t p xv yv (none, none) best1 with
  | error e => rfl
  | ok st' =>
    have hstep : stepH t p xv yv st' hr = .ok st' := by
      unfold stepH
      rw [if_neg hmem]
    have hskip : runBest t p xv yv st' (hr :: best2) = runBest t p xv yv st' best2 := by
      show (match stepH t p xv yv st' hr with
        | .ok st'' => runBest t p xv yv st'' best2
        | .error e => .error e) = _
      rw [hstep]
    exact congrArg (Except.map fun st => (⟨xv, yv, st.2, st.1⟩ : ForecastRow)) hskip

/-- C10 witness: an entry mapping `h1` to the absent column `zzz` contributes
nothing: the classification equals the one with the entry removed. -/
theorem C10_unknown_pattern_skipped_witness :
    classifyRow ⟨[1], [("h1", [5])]⟩ ⟨[1], [("r1", [5])]⟩ [("h1", "zzz")] 1 5 =
      classifyRow ⟨[1], [("h1", [5])]⟩ ⟨[1], [("r1", [5])]⟩ [] 1 5 :=
  C10_unknown_pattern_skipped ⟨[1], [("h1", [5])]⟩ ⟨[1], [("r1", [5])]⟩ [] []
    ("h1", "zzz") 1 5 (by decide)

end SalesForecast
